import Mathlib

/-!
Shallow embedding of the Lanczos-style decomposition algorithms of
matfree (src/matfree/lanczos.py), with machine floats modelled as exact
real numbers.  Dense vectors are functions `Fin n → ℝ`.  The jax.numpy
array-indexing conventions relied on by the source (negative indices
wrap once, out-of-range reads clamp, out-of-range writes are dropped)
are modelled by `aget` / `aset` over an `Int` index.
-/

namespace Matfree

open Matrix

/-! ### Definitions: the embedded data model and operations -/

/-- Dense real vector of length `n` (models a 1-d jax array of floats). -/
abbrev Vec (n : ℕ) := Fin n → ℝ

/-- Dot product of two vectors (models `linalg.vecdot` of the array backend). -/
def vecdot {n : ℕ} (v w : Vec n) : ℝ := ∑ j, v j * w j

/-- Euclidean norm of a vector (models `linalg.vector_norm` of the array backend). -/
noncomputable def vector_norm {n : ℕ} (v : Vec n) : ℝ := Real.sqrt (vecdot v v)

/-- Resolve an integer index for a read from an array of length `m`:
negative indices wrap once, indices beyond either end are clamped
(models jax.numpy gather semantics for traced indices). -/
def aidx (m : ℕ) [NeZero m] (i : ℤ) : Fin m :=
  if h : 0 ≤ i ∧ i < (m : ℤ) then ⟨i.toNat, by omega⟩
  else if h2 : -(m : ℤ) ≤ i ∧ i < 0 then ⟨(i + m).toNat, by omega⟩
  else if 0 ≤ i then ⟨m - 1, by have := NeZero.pos m; omega⟩
  else ⟨0, NeZero.pos m⟩

/-- Array read at an integer index (models `x[i]` on a jax array). -/
def aget {m : ℕ} {α : Type} [NeZero m] (f : Fin m → α) (i : ℤ) : α := f (aidx m i)

/-- Array write at an integer index: negative indices wrap once and
out-of-range writes are dropped (models `x.at[i].set(v)` scatter semantics). -/
def aset {m : ℕ} {α : Type} (f : Fin m → α) (i : ℤ) (x : α) : Fin m → α :=
  if h : 0 ≤ i ∧ i < (m : ℤ) then Function.update f ⟨i.toNat, by omega⟩ x
  else if h2 : -(m : ℤ) ≤ i ∧ i < 0 then Function.update f ⟨(i + m).toNat, by omega⟩ x
  else f

/-- Modelled from the spec: `control_flow.scan` of the array backend (the
backend package is not under src/); per the spec it is the left fold that
threads a carry through the sequence and collects the per-element outputs
in order. -/
def scan {σ α β : Type} (f : σ → α → σ × β) : σ → List α → σ × List β
  | s, [] => (s, [])
  | s, x :: xs =>
    let p := f s x
    let r := scan f p.1 xs
    (r.1, p.2 :: r.2)

/-- Source `_normalise`: divide a vector by its Euclidean norm, returning
the rescaled vector together with the norm. -/
noncomputable def normalise {n : ℕ} (vec : Vec n) : Vec n × ℝ :=
  (fun j => vec j / vector_norm vec, vector_norm vec)

/-- Source `_gram_schmidt_orthogonalise`: project `vec2` out of `vec1`,
returning the residual and the projection coefficient. -/
def gram_schmidt_orthogonalise {n : ℕ} (vec1 vec2 : Vec n) : Vec n × ℝ :=
  (fun j => vec1 j - vecdot vec1 vec2 * vec2 j, vecdot vec1 vec2)

/-- Source `_gram_schmidt_orthogonalise_set`: scan the single-vector
projection over an ordered sequence of reference vectors. -/
def gram_schmidt_orthogonalise_set {n : ℕ} (vec : Vec n) (vectors : List (Vec n)) :
    Vec n × List ℝ :=
  scan gram_schmidt_orthogonalise vec vectors

/-- Source `_LanczosState` (the source keeps `(diag, offdiag)` as one
`tridiag` pair; it is flattened into two fields here). -/
structure LanczosState (depth n : ℕ) where
  i : ℕ
  basis : Fin (depth + 1) → Vec n
  diag : Fin (depth + 1) → ℝ
  offdiag : Fin depth → ℝ
  q : Vec n

/-- Python `ValueError`; `msg` is `none` for a bare `raise ValueError`. -/
structure PyValueError where
  msg : Option String
deriving DecidableEq

/-- The state built by `_lanczos_full_reortho_init` after its depth check
passes: zero-filled arrays and the initial vector stored as given. -/
noncomputable def lanczosInitState (depth n : ℕ) (init_vec : Vec n) :
    LanczosState depth n :=
  { i := 0, basis := 0, diag := 0, offdiag := 0, q := init_vec }

/-- Source `_lanczos_full_reortho_init`: raise a bare `ValueError` when
`depth >= ncols or depth < 1`, otherwise allocate the zeroed state. -/
noncomputable def lanczos_full_reortho_init (depth : ℤ) {n : ℕ} (init_vec : Vec n) :
    Except PyValueError (LanczosState depth.toNat n) :=
  if depth ≥ (n : ℤ) ∨ depth < 1 then .error ⟨none⟩
  else .ok (lanczosInitState depth.toNat n init_vec)

/-- Source `_lanczos_full_reortho_apply`: one step of the tridiagonal
(Lanczos) iteration with full reorthogonalisation. -/
noncomputable def lanczos_full_reortho_apply {depth n : ℕ}
    (state : LanczosState depth n) (Av : Vec n → Vec n) : LanczosState depth n :=
  let i := state.i
  let p1 := normalise state.q
  let length := p1.2
  let p2 := gram_schmidt_orthogonalise_set p1.1 (List.ofFn state.basis)
  let p3 := normalise p2.1
  let basis1 := aset state.basis (i : ℤ) p3.1
  let vec1 := Av p3.1
  let prev : List (Vec n) := [aget basis1 (i : ℤ), aget basis1 ((i : ℤ) - 1)]
  let p4 := gram_schmidt_orthogonalise_set vec1 prev
  let coeff := p4.2.headI
  { i := i + 1
    basis := basis1
    diag := aset state.diag (i : ℤ) coeff
    offdiag := aset state.offdiag ((i : ℤ) - 1) length
    q := p4.1 }

/-- Source `_lanczos_full_reortho_extract`: drop the index and the working
vector, return the basis and the tridiagonal coefficient pair. -/
def lanczos_full_reortho_extract {depth n : ℕ} (state : LanczosState depth n) :
    (Fin (depth + 1) → Vec n) × ((Fin (depth + 1) → ℝ) × (Fin depth → ℝ)) :=
  (state.basis, (state.diag, state.offdiag))

/-- Source `_DecompAlg`: an iterative decomposition algorithm represented
as data.  `init` may raise (as `_lanczos_full_reortho_init` does). -/
structure DecompAlg (St InV Out Ops : Type) where
  init : InV → Except PyValueError St
  step : St → Ops → St
  extract : St → Out
  lower_upper : ℤ × ℤ

/-- Source `lanczos_full_reortho`: the tridiagonal descriptor constructor.
It performs no validation of `depth` and never raises; it only packages
the three callbacks and the loop range `(0, depth + 1)`. -/
noncomputable def lanczos_full_reortho (depth : ℤ) (n : ℕ) :
    Except PyValueError
      (DecompAlg (LanczosState depth.toNat n) (Vec n)
        ((Fin (depth.toNat + 1) → Vec n) ×
          ((Fin (depth.toNat + 1) → ℝ) × (Fin depth.toNat → ℝ)))
        (Vec n → Vec n)) :=
  .ok
    { init := fun v => lanczos_full_reortho_init depth v
      step := lanczos_full_reortho_apply
      extract := lanczos_full_reortho_extract
      lower_upper := (0, depth + 1) }

/-- Source `_GKLState`. -/
structure GKLState (depth nrows ncols : ℕ) where
  i : ℕ
  Us : Fin (depth + 1) → Vec nrows
  Vs : Fin (depth + 1) → Vec ncols
  alphas : Fin (depth + 1) → ℝ
  betas : Fin (depth + 1) → ℝ
  beta : ℝ
  vk : Vec ncols

/-- Source `_gkl_full_reortho_init`: allocate zero-filled arrays, store the
normalised initial vector and a zero trailing scalar. -/
noncomputable def gkl_full_reortho_init (depth nrows ncols : ℕ) (init_vec : Vec ncols) :
    GKLState depth nrows ncols :=
  { i := 0, Us := 0, Vs := 0, alphas := 0, betas := 0, beta := 0
    vk := (normalise init_vec).1 }

/-- Source `_gkl_full_reortho_apply`: one step of the bidiagonal
(Golub-Kahan-Lanczos) iteration with full reorthogonalisation. -/
noncomputable def gkl_full_reortho_apply {depth nrows ncols : ℕ}
    (state : GKLState depth nrows ncols)
    (Av : Vec ncols → Vec nrows) (vA : Vec nrows → Vec ncols) :
    GKLState depth nrows ncols :=
  let i := state.i
  let Vs1 := aset state.Vs (i : ℤ) state.vk
  let betas1 := aset state.betas (i : ℤ) state.beta
  let uk0 : Vec nrows := fun j => Av state.vk j - state.beta * aget state.Us ((i : ℤ) - 1) j
  let p1 := normalise uk0
  let p2 := gram_schmidt_orthogonalise_set p1.1 (List.ofFn state.Us)
  let p3 := normalise p2.1
  let Us1 := aset state.Us (i : ℤ) p3.1
  let alphas1 := aset state.alphas (i : ℤ) p1.2
  let vk0 : Vec ncols := fun j => vA p3.1 j - p1.2 * state.vk j
  let q1 := normalise vk0
  let q2 := gram_schmidt_orthogonalise_set q1.1 (List.ofFn Vs1)
  let q3 := normalise q2.1
  { i := i + 1, Us := Us1, Vs := Vs1, alphas := alphas1, betas := betas1
    beta := q1.2, vk := q3.1 }

/-- Source `_gkl_full_reortho_extract`: return `Us` transposed to columns,
the coefficient pair with `betas[1:]`, `Vs`, and the trailing pair. -/
def gkl_full_reortho_extract {depth nrows ncols : ℕ} (state : GKLState depth nrows ncols) :
    (Fin nrows → Fin (depth + 1) → ℝ) ×
      ((Fin (depth + 1) → ℝ) × (Fin depth → ℝ)) ×
      (Fin (depth + 1) → Vec ncols) × (ℝ × Vec ncols) :=
  (fun j k => state.Us k j,
    (state.alphas, fun k => state.betas k.succ),
    state.Vs, (state.beta, state.vk))

/-- Source `gkl_full_reortho`: the bidiagonal descriptor constructor.  It
validates `depth` against `matrix_shape` and raises a `ValueError` whose
message names the offending depth and the valid bound. -/
noncomputable def gkl_full_reortho (depth : ℤ) (nrows ncols : ℕ) :
    Except PyValueError
      (DecompAlg (GKLState depth.toNat nrows ncols) (Vec ncols)
        ((Fin nrows → Fin (depth.toNat + 1) → ℝ) ×
          ((Fin (depth.toNat + 1) → ℝ) × (Fin depth.toNat → ℝ)) ×
          (Fin (depth.toNat + 1) → Vec ncols) × (ℝ × Vec ncols))
        ((Vec ncols → Vec nrows) × (Vec nrows → Vec ncols))) :=
  let max_depth : ℤ := min (nrows : ℤ) (ncols : ℤ) - 1
  if depth > max_depth ∨ depth < 0 then
    .error ⟨some ("Depth " ++ toString depth ++ " exceeds the matrix\x27 dimensions. " ++
      "Expected: 0 <= depth <= min(nrows, ncols) - 1 = " ++ toString max_depth ++
      " for a matrix with shape (" ++ toString (nrows : ℤ) ++ ", " ++
      toString (ncols : ℤ) ++ ").")⟩
  else
    .ok
      { init := fun v => .ok (gkl_full_reortho_init depth.toNat nrows ncols v)
        step := fun s ops => gkl_full_reortho_apply s ops.1 ops.2
        extract := gkl_full_reortho_extract
        lower_upper := (0, depth + 1) }

/-- Modelled from the spec: the generic fixed-count driver
(`decomp.decompose_fori_loop`; the `matfree.decomp` module is not under
src/).  Per spec section 4.4 it calls `init` once, applies `step` exactly
`upper - lower` times threading the state sequentially, then extracts. -/
def decompose_fori_loop {St InV Out Ops : Type} (lower upper : ℤ) (v0 : InV) (ops : Ops)
    (alg : DecompAlg St InV Out Ops) : Except PyValueError Out := do
  let s0 ← alg.init v0
  pure (alg.extract ((fun s => alg.step s ops)^[(upper - lower).toNat] s0))

/-- Dense symmetric tridiagonal matrix built from a diagonal and an
off-diagonal (source `_sym_tridiagonal_dense` in tests/test_decomp.py). -/
def symTridiag {depth : ℕ} (d : Fin (depth + 1) → ℝ) (e : Fin depth → ℝ) :
    Matrix (Fin (depth + 1)) (Fin (depth + 1)) ℝ :=
  Matrix.of fun j k =>
    (if j = k then d j else 0) +
    (if h : j.1 + 1 = k.1 then e ⟨j.1, by omega⟩ else 0) +
    (if h : k.1 + 1 = j.1 then e ⟨k.1, by omega⟩ else 0)

/-- Spec-side rendering of the C1 step description (spec section 4.2):
normalize the working vector obtaining its length; Gram-Schmidt-project
it against all `depth+1` basis rows; re-normalize the residual; write the
result into basis row `i`; apply the operator; project the image
sequentially against exactly the two rows `i` and `i-1`, obtaining the
two coefficients; store `diag[i] = coeff_i` and `offdiag[i-1] = length`;
return the state with index `i+1` and the twice-projected image. -/
noncomputable def lanczosStepSpec {depth n : ℕ} (state : LanczosState depth n)
    (Av : Vec n → Vec n) : LanczosState depth n :=
  let i := state.i
  let length := vector_norm state.q
  let v1 := (normalise state.q).1
  let v2 := (gram_schmidt_orthogonalise_set v1 (List.ofFn state.basis)).1
  let v3 := (normalise v2).1
  let basis1 := aset state.basis (i : ℤ) v3
  let w := Av v3
  let r1 := gram_schmidt_orthogonalise w (aget basis1 (i : ℤ))
  let r2 := gram_schmidt_orthogonalise r1.1 (aget basis1 ((i : ℤ) - 1))
  { i := i + 1
    basis := basis1
    diag := aset state.diag (i : ℤ) r1.2
    offdiag := aset state.offdiag ((i : ℤ) - 1) length
    q := r2.1 }

/-- The embedded computation signals a Python exception. -/
def raises {α : Type} (x : Except PyValueError α) : Prop := ∃ e, x = .error e

/-- States reachable from the GKL initializer by any number of steps,
with arbitrary operator callbacks at each step. -/
inductive GKLReachable {depth nrows ncols : ℕ} (v0 : Vec ncols) :
    GKLState depth nrows ncols → Prop
  | init : GKLReachable v0 (gkl_full_reortho_init depth nrows ncols v0)
  | step (s : GKLState depth nrows ncols) (Av : Vec ncols → Vec nrows)
      (vA : Vec nrows → Vec ncols) :
      GKLReachable v0 s → GKLReachable v0 (gkl_full_reortho_apply s Av vA)

/-- The Lanczos iteration unrolled from the freshly initialised state. -/
noncomputable def lanczosRun (depth : ℕ) {n : ℕ} (Av : Vec n → Vec n) (v0 : Vec n)
    (k : ℕ) : LanczosState depth n :=
  (fun s => lanczos_full_reortho_apply s Av)^[k] (lanczosInitState depth n v0)

/-- Loop invariant of the exact-arithmetic Lanczos iteration after `k`
steps: the first `k` basis rows are orthonormal, the remaining rows are
still zero padding, the working vector is orthogonal to every written
row, the written rows satisfy the symmetric three-term recurrence with
the already-stored coefficients, and the most recently written row
carries the working vector as its dangling recurrence term. -/
structure LInv {depth n : ℕ} (A : Matrix (Fin n) (Fin n) ℝ) (k : ℕ)
    (s : LanczosState depth n) : Prop where
  hk : k ≤ depth + 1
  idx : s.i = k
  unit : ∀ j : ℕ, (hj : j < k) →
    vecdot (s.basis ⟨j, by omega⟩) (s.basis ⟨j, by omega⟩) = 1
  orth : ∀ j t : ℕ, (hj : j < k) → (ht : t < k) → j ≠ t →
    vecdot (s.basis ⟨j, by omega⟩) (s.basis ⟨t, by omega⟩) = 0
  zrow : ∀ j : Fin (depth + 1), k ≤ j.1 → s.basis j = 0
  worth : ∀ j : ℕ, (hj : j < k) → vecdot s.q (s.basis ⟨j, by omega⟩) = 0
  rec3 : ∀ j : ℕ, (hj : j + 1 < k) →
    A.mulVec (s.basis ⟨j, by omega⟩) =
      s.offdiag ⟨j, by omega⟩ • s.basis ⟨j + 1, by omega⟩ +
        s.diag ⟨j, by omega⟩ • s.basis ⟨j, by omega⟩ +
        (if hj0 : 0 < j then
          s.offdiag ⟨j - 1, by omega⟩ • s.basis ⟨j - 1, by omega⟩ else 0)
  rlast : ∀ j : ℕ, (hj : j + 1 = k) →
    A.mulVec (s.basis ⟨j, by omega⟩) =
      s.q + s.diag ⟨j, by omega⟩ • s.basis ⟨j, by omega⟩ +
        (if hj0 : 0 < j then
          s.offdiag ⟨j - 1, by omega⟩ • s.basis ⟨j - 1, by omega⟩ else 0)

/-- No normalisation in the first `K` steps of the tridiagonal run meets
the zero vector: both the working vector entering each step and the
residual of the full reorthogonalisation are nonzero. -/
noncomputable def LanczosNoBreakdown (depth : ℕ) {n : ℕ} (Av : Vec n → Vec n)
    (v0 : Vec n) (K : ℕ) : Prop :=
  ∀ k < K, (lanczosRun depth Av v0 k).q ≠ 0 ∧
    (gram_schmidt_orthogonalise_set (normalise (lanczosRun depth Av v0 k).q).1
      (List.ofFn (lanczosRun depth Av v0 k).basis)).1 ≠ 0

/-- Concrete symmetric operator used to exercise the round-trip law. -/
noncomputable def wA : Matrix (Fin 2) (Fin 2) ℝ := ![![0, 1], ![1, 0]]

/-- Concrete initial vector used to exercise the round-trip law. -/
noncomputable def wv : Vec 2 := ![1, 0]

/-! ### Lemmas and claim theorems -/

theorem vecdot_comm {n : ℕ} (v w : Vec n) : vecdot v w = vecdot w v :=
  Finset.sum_congr rfl fun _ _ => mul_comm _ _

theorem vecdot_zero_right {n : ℕ} (v : Vec n) : vecdot v 0 = 0 := by
  simp [vecdot]

theorem vecdot_zero_left {n : ℕ} (v : Vec n) : vecdot 0 v = 0 := by
  simp [vecdot]

theorem vecdot_sub_mul_left {n : ℕ} (v r w : Vec n) (c : ℝ) :
    vecdot (fun j => v j - c * r j) w = vecdot v w - c * vecdot r w := by
  simp [vecdot, sub_mul, Finset.sum_sub_distrib, mul_assoc, Finset.mul_sum]

theorem vecdot_div_left {n : ℕ} (v w : Vec n) (c : ℝ) :
    vecdot (fun j => v j / c) w = vecdot v w / c := by
  simp [vecdot, div_mul_eq_mul_div, Finset.sum_div]

theorem vecdot_self_nonneg {n : ℕ} (v : Vec n) : 0 ≤ vecdot v v :=
  Finset.sum_nonneg fun j _ => mul_self_nonneg (v j)

theorem vecdot_self_eq_zero_iff {n : ℕ} (v : Vec n) : vecdot v v = 0 ↔ v = 0 := by
  constructor
  · intro h
    funext j
    have h0 := (Finset.sum_eq_zero_iff_of_nonneg
      (fun j _ => mul_self_nonneg (v j))).1 h j (Finset.mem_univ j)
    exact mul_self_eq_zero.1 h0
  · intro h; subst h; exact vecdot_zero_left 0

theorem vector_norm_eq_zero_iff {n : ℕ} (v : Vec n) : vector_norm v = 0 ↔ v = 0 := by
  unfold vector_norm
  rw [Real.sqrt_eq_zero (vecdot_self_nonneg v)]
  exact vecdot_self_eq_zero_iff v

theorem vector_norm_mul_self {n : ℕ} (v : Vec n) :
    vector_norm v * vector_norm v = vecdot v v :=
  Real.mul_self_sqrt (vecdot_self_nonneg v)

theorem vecdot_normalise_self {n : ℕ} (v : Vec n) (hv : v ≠ 0) :
    vecdot (normalise v).1 (normalise v).1 = 1 := by
  have hd : vecdot v v ≠ 0 := fun h => hv ((vecdot_self_eq_zero_iff v).1 h)
  have key : vecdot (fun j => v j / vector_norm v) (fun j => v j / vector_norm v)
      = vecdot v v / (vector_norm v * vector_norm v) := by
    simp [vecdot, Finset.sum_div, div_mul_div_comm]
  simp only [normalise]
  rw [key, vector_norm_mul_self, div_self hd]

theorem normalise_of_unit {n : ℕ} (v : Vec n) (hv : vecdot v v = 1) :
    (normalise v).1 = v := by
  simp only [normalise, vector_norm, hv, Real.sqrt_one]
  funext j; simp

theorem scan_nil {σ α β : Type} (f : σ → α → σ × β) (s : σ) : scan f s [] = (s, []) := rfl

theorem scan_cons {σ α β : Type} (f : σ → α → σ × β) (s : σ) (x : α) (xs : List α) :
    scan f s (x :: xs) =
      ((scan f (f s x).1 xs).1, (f s x).2 :: (scan f (f s x).1 xs).2) := rfl

theorem scan_append {σ α β : Type} (f : σ → α → σ × β) (s : σ) (xs ys : List α) :
    scan f s (xs ++ ys) =
      ((scan f (scan f s xs).1 ys).1,
        (scan f s xs).2 ++ (scan f (scan f s xs).1 ys).2) := by
  induction xs generalizing s with
  | nil => simp [scan]
  | cons x xs ih => simp [scan_cons, ih]

theorem scan_eq_foldl_aux {σ α β : Type} (f : σ → α → σ × β) (xs : List α)
    (s : σ) (acc : List β) :
    xs.foldl (fun p x => ((f p.1 x).1, p.2 ++ [(f p.1 x).2])) (s, acc) =
      ((scan f s xs).1, acc ++ (scan f s xs).2) := by
  induction xs generalizing s acc with
  | nil => simp [scan]
  | cons x xs ih => simp [scan_cons, List.foldl_cons, ih]

theorem gs_set_cons {n : ℕ} (w r : Vec n) (rs : List (Vec n)) :
    gram_schmidt_orthogonalise_set w (r :: rs) =
      ((gram_schmidt_orthogonalise_set (gram_schmidt_orthogonalise w r).1 rs).1,
        (gram_schmidt_orthogonalise w r).2 ::
          (gram_schmidt_orthogonalise_set (gram_schmidt_orthogonalise w r).1 rs).2) := rfl

theorem gs_noop {n : ℕ} (w r : Vec n) (h : vecdot w r = 0) :
    gram_schmidt_orthogonalise w r = (w, 0) := by
  simp [gram_schmidt_orthogonalise, h]

theorem gs_set_noop {n : ℕ} (w : Vec n) (rs : List (Vec n))
    (h : ∀ r ∈ rs, vecdot w r = 0) :
    (gram_schmidt_orthogonalise_set w rs).1 = w := by
  induction rs with
  | nil => rfl
  | cons r rs ih =>
    rw [gs_set_cons, gs_noop w r (h r (List.mem_cons_self r rs))]
    exact ih fun r hr => h r (List.mem_cons_of_mem _ hr)

theorem gs_set_res_orth_of_orth {n : ℕ} (rs : List (Vec n)) (w t : Vec n)
    (hw : vecdot w t = 0) (hrs : ∀ r ∈ rs, vecdot r t = 0) :
    vecdot (gram_schmidt_orthogonalise_set w rs).1 t = 0 := by
  induction rs generalizing w with
  | nil => exact hw
  | cons r rs ih =>
    rw [gs_set_cons]
    have h1 : vecdot (gram_schmidt_orthogonalise w r).1 t = 0 := by
      simp only [gram_schmidt_orthogonalise]
      rw [vecdot_sub_mul_left, hw, hrs r (List.mem_cons_self r rs), mul_zero, sub_zero]
    exact ih _ h1 fun r hr => hrs r (List.mem_cons_of_mem _ hr)

/-- C7: the single-vector projection primitive returns
`(v - dot(v, ref) * ref, dot(v, ref))`, and the batched primitive is the
left fold of the single-vector primitive over the ordered reference
sequence, returning the final residual with the coefficients in order. -/
theorem project_out_is_pair_and_batched_is_foldl {n : ℕ} :
    (∀ v rf : Vec n, gram_schmidt_orthogonalise v rf =
        (fun j => v j - vecdot v rf * rf j, vecdot v rf)) ∧
      (∀ (v : Vec n) (refs : List (Vec n)),
        gram_schmidt_orthogonalise_set v refs =
          refs.foldl
            (fun p r => ((gram_schmidt_orthogonalise p.1 r).1,
              p.2 ++ [(gram_schmidt_orthogonalise p.1 r).2]))
            (v, [])) := by
  refine ⟨fun v rf => rfl, fun v refs => ?_⟩
  rw [scan_eq_foldl_aux gram_schmidt_orthogonalise refs v []]
  simp [gram_schmidt_orthogonalise_set]

/-- C3: projecting a vector against the zero vector returns the vector
unchanged with a zero coefficient; consequently the batched Gram-Schmidt
fold over a padded basis whose rows beyond the valid prefix are all zero
returns the same residual as the fold over the valid prefix alone. -/
theorem gram_schmidt_zero_row_invariant {n : ℕ} :
    (∀ v : Vec n, gram_schmidt_orthogonalise v 0 = (v, 0)) ∧
      (∀ (v : Vec n) (valid pad : List (Vec n)), (∀ r ∈ pad, r = (0 : Vec n)) →
        (gram_schmidt_orthogonalise_set v (valid ++ pad)).1 =
          (gram_schmidt_orthogonalise_set v valid).1) := by
  constructor
  · intro v
    exact gs_noop v 0 (vecdot_zero_right v)
  · intro v valid pad hpad
    have hsplit : (gram_schmidt_orthogonalise_set v (valid ++ pad)).1 =
        (gram_schmidt_orthogonalise_set
          (gram_schmidt_orthogonalise_set v valid).1 pad).1 := by
      simp [gram_schmidt_orthogonalise_set, scan_append]
    rw [hsplit]
    exact gs_set_noop _ pad fun r hr => by rw [hpad r hr]; exact vecdot_zero_right _

/-- Witness for C3: a concrete two-dimensional instance with one valid row
and one zero padding row. -/
theorem gram_schmidt_zero_row_invariant_witness :
    (∀ r ∈ [(0 : Vec 2)], r = (0 : Vec 2)) ∧
      (gram_schmidt_orthogonalise_set (fun _ => 1)
          ([fun j => if j = 0 then 1 else 0] ++ [(0 : Vec 2)])).1 =
        (gram_schmidt_orthogonalise_set (fun _ => 1)
          [fun j => if j = 0 then 1 else 0]).1 :=
  ⟨by simp, gram_schmidt_zero_row_invariant.2 (fun _ => 1)
    [fun j => if j = 0 then 1 else 0] [(0 : Vec 2)] (by simp)⟩

/-- C8: the normalize primitive is total — for every vector, including
the zero vector, it returns the componentwise division by the Euclidean
norm paired with the norm, raising nothing — and its divisor vanishes
exactly at the zero vector, which is therefore the only degenerate point
of the division. -/
theorem normalise_total_and_zero_only_degenerate {n : ℕ} :
    (∀ v : Vec n, normalise v = (fun j => v j / vector_norm v, vector_norm v)) ∧
      (∀ v : Vec n, vector_norm v = 0 ↔ v = 0) :=
  ⟨fun _ => rfl, fun v => vector_norm_eq_zero_iff v⟩

/-- C10: the GKL initializer stores the initial vector normalised (unit
length), with zero trailing scalar, index 0 and zero-filled arrays, while
the tridiagonal initializer stores the initial vector exactly as given. -/
theorem initializers_store_vector_differently :
    (∀ (depth nrows ncols : ℕ) (v : Vec ncols),
        gkl_full_reortho_init depth nrows ncols v =
          { i := 0, Us := 0, Vs := 0, alphas := 0, betas := 0, beta := 0
            vk := fun j => v j / vector_norm v }) ∧
      (∀ (depth : ℤ) (n : ℕ) (v : Vec n), 1 ≤ depth → depth < (n : ℤ) →
        lanczos_full_reortho_init depth v =
          .ok { i := 0, basis := 0, diag := 0, offdiag := 0, q := v }) := by
  refine ⟨fun _ _ _ _ => rfl, fun depth n v h1 h2 => ?_⟩
  rw [lanczos_full_reortho_init, if_neg (by omega)]
  rfl

/-- Witness for C10 with a valid concrete depth. -/
theorem initializers_store_vector_differently_witness :
    ((1 : ℤ) ≤ 1 ∧ (1 : ℤ) < (2 : ℕ)) ∧
      lanczos_full_reortho_init 1 (fun _ => 3 : Vec 2) =
        .ok { i := 0, basis := 0, diag := 0, offdiag := 0, q := fun _ => 3 } :=
  ⟨⟨by norm_num, by norm_num⟩,
    initializers_store_vector_differently.2 1 2 (fun _ => 3) (by norm_num) (by norm_num)⟩

theorem aset_coe_lt {m : ℕ} {α : Type} (f : Fin m → α) (i : ℕ) (h : i < m) (x : α) :
    aset f (i : ℤ) x = Function.update f ⟨i, h⟩ x := by
  rw [aset, dif_pos (by constructor <;> omega)]
  simp [Int.toNat_natCast]

theorem aset_oob {m : ℕ} {α : Type} (f : Fin m → α) (i : ℕ) (h : m ≤ i) (x : α) :
    aset f (i : ℤ) x = f := by
  rw [aset, dif_neg (by omega), dif_neg (by omega)]

theorem aset_neg_one {m : ℕ} {α : Type} (hm : 0 < m) (f : Fin m → α) (x : α) :
    aset f (-1) x = Function.update f ⟨m - 1, by omega⟩ x := by
  rw [aset, dif_neg (by omega), dif_pos (by constructor <;> omega)]
  have hv : ((-1 : ℤ) + m).toNat = m - 1 := by omega
  simp [hv]

theorem aget_coe_lt {m : ℕ} {α : Type} [NeZero m] (f : Fin m → α) (i : ℕ) (h : i < m) :
    aget f (i : ℤ) = f ⟨i, h⟩ := by
  rw [aget, aidx, dif_pos (by constructor <;> omega)]
  simp [Int.toNat_natCast]

theorem aget_neg_one {m : ℕ} {α : Type} [NeZero m] (f : Fin m → α) :
    aget f (-1) = f ⟨m - 1, by have := NeZero.pos m; omega⟩ := by
  have hm := NeZero.pos m
  rw [aget, aidx, dif_neg (by omega), dif_pos (by constructor <;> omega)]
  have hv : ((-1 : ℤ) + m).toNat = m - 1 := by omega
  simp [hv]

/-- C1: the source tridiagonal step performs exactly the operation
sequence of the spec — normalize obtaining the length, project against
all `depth+1` basis rows, re-normalize, write basis row `i`, apply `Av`,
project against exactly rows `i` and `i-1` yielding `(coeff_i,
coeff_{i-1})`, store `diag[i] = coeff_i` and `offdiag[i-1]` = the
pre-step length, and return index `i+1` with the twice-projected image
as the working vector. -/
theorem lanczos_apply_eq_spec_step {depth n : ℕ}
    (state : LanczosState depth n) (Av : Vec n → Vec n) :
    lanczos_full_reortho_apply state Av = lanczosStepSpec state Av := rfl

/-- C4: the tridiagonal state initializer raises `ValueError` — before
any stepping — exactly when `depth ≥ n` or `depth < 1`; the bidiagonal
descriptor constructor raises exactly when `depth > min(nrows, ncols) -
1` or `depth < 0`; and with an invalid tridiagonal depth the driver
returns the error no matter which step function it would have run, so no
step is ever executed on an invalid depth. -/
theorem depth_validation_iff :
    (∀ (depth : ℤ) (n : ℕ) (v : Vec n),
        raises (lanczos_full_reortho_init depth v) ↔
          (depth ≥ (n : ℤ) ∨ depth < 1)) ∧
      (∀ (depth : ℤ) (nrows ncols : ℕ),
        raises (gkl_full_reortho depth nrows ncols) ↔
          (depth > min (nrows : ℤ) (ncols : ℤ) - 1 ∨ depth < 0)) ∧
      (∀ (depth : ℤ) (n : ℕ) (v : Vec n) (Av : Vec n → Vec n)
        (Out : Type)
        (stepf : LanczosState depth.toNat n → (Vec n → Vec n) →
          LanczosState depth.toNat n)
        (extractf : LanczosState depth.toNat n → Out),
        (depth ≥ (n : ℤ) ∨ depth < 1) →
          decompose_fori_loop 0 (depth + 1) v Av
            { init := fun w => lanczos_full_reortho_init depth w
              step := stepf, extract := extractf, lower_upper := (0, depth + 1) } =
            .error ⟨none⟩) := by
  refine ⟨fun depth n v => ?_, fun depth nrows ncols => ?_, fun depth n v Av Out sf ef h => ?_⟩
  · rw [lanczos_full_reortho_init]
    by_cases h : depth ≥ (n : ℤ) ∨ depth < 1
    · simp [if_pos h, raises, h]
    · simp [if_neg h, raises, h]
  · rw [gkl_full_reortho]
    by_cases h : depth > min (nrows : ℤ) (ncols : ℤ) - 1 ∨ depth < 0
    · simp only [if_pos h]
      simp [raises, h]
    · simp only [if_neg h]
      simp [raises, h]
  · have hinit : lanczos_full_reortho_init depth v = .error ⟨none⟩ := by
      rw [lanczos_full_reortho_init, if_pos h]
    simp [decompose_fori_loop, hinit]

/-- Witness for C4: with the invalid depth 5 on a 3-dimensional problem
the driver yields the bare `ValueError` for an arbitrary step function. -/
theorem depth_validation_iff_witness :
    ((5 : ℤ) ≥ ((3 : ℕ) : ℤ) ∨ (5 : ℤ) < 1) ∧
      decompose_fori_loop 0 ((5 : ℤ) + 1) (0 : Vec 3) (fun v : Vec 3 => v)
        { init := fun w => lanczos_full_reortho_init 5 w
          step := fun s _ => s
          extract := fun _ => ()
          lower_upper := (0, (5 : ℤ) + 1) } = .error ⟨none⟩ :=
  ⟨by norm_num, depth_validation_iff.2.2 5 3 0 (fun v : Vec 3 => v) Unit
    (fun s _ => s) (fun _ => ()) (by norm_num)⟩

/-- Counterexample for C5: the out-of-range tridiagonal depth 0 is not
signaled at descriptor-construction time — the descriptor constructor
succeeds — and the error later raised by the state initializer carries no
message naming the depth or the bound. -/
theorem descriptor_construction_counterexample :
    ((0 : ℤ) < 1) ∧
      lanczos_full_reortho 0 3 =
        .ok { init := fun v => lanczos_full_reortho_init 0 v
              step := lanczos_full_reortho_apply
              extract := lanczos_full_reortho_extract
              lower_upper := (0, 0 + 1) } ∧
      lanczos_full_reortho_init 0 ((0 : Vec 3)) = .error ⟨none⟩ := by
  refine ⟨by norm_num, rfl, ?_⟩
  rw [lanczos_full_reortho_init, if_pos (by norm_num)]

/-- C5 (amended): only the bidiagonal algorithm signals an out-of-range
depth at descriptor-construction time, with a message naming the invalid
depth and the valid bound; the tridiagonal descriptor constructor
performs no validation and never raises — there an out-of-range depth is
signaled by the state initializer (still before any step) with a bare,
message-free `ValueError`. -/
theorem descriptor_construction_errors :
    (∀ (depth : ℤ) (n : ℕ),
        lanczos_full_reortho depth n =
          .ok { init := fun v => lanczos_full_reortho_init depth v
                step := lanczos_full_reortho_apply
                extract := lanczos_full_reortho_extract
                lower_upper := (0, depth + 1) }) ∧
      (∀ (depth : ℤ) (n : ℕ) (v : Vec n),
        lanczos_full_reortho_init depth v = .error ⟨none⟩ ↔
          (depth ≥ (n : ℤ) ∨ depth < 1)) ∧
      (∀ (depth : ℤ) (nrows ncols : ℕ),
        gkl_full_reortho depth nrows ncols =
            .error ⟨some ("Depth " ++ toString depth ++
              " exceeds the matrix\x27 dimensions. " ++
              "Expected: 0 <= depth <= min(nrows, ncols) - 1 = " ++
              toString (min (nrows : ℤ) (ncols : ℤ) - 1) ++
              " for a matrix with shape (" ++ toString (nrows : ℤ) ++ ", " ++
              toString (ncols : ℤ) ++ ").")⟩ ↔
          (depth > min (nrows : ℤ) (ncols : ℤ) - 1 ∨ depth < 0)) := by
  refine ⟨fun depth n => rfl, fun depth n v => ?_, fun depth nrows ncols => ?_⟩
  · rw [lanczos_full_reortho_init]
    by_cases h : depth ≥ (n : ℤ) ∨ depth < 1
    · simp [if_pos h, h]
    · simp [if_neg h, h]
  · rw [gkl_full_reortho]
    by_cases h : depth > min (nrows : ℤ) (ncols : ℤ) - 1 ∨ depth < 0
    · simp only [if_pos h]
      simp [h]
    · simp only [if_neg h]
      simp [h]

theorem gkl_reachable_inv {depth nrows ncols : ℕ} (v0 : Vec ncols)
    (s : GKLState depth nrows ncols) (h : GKLReachable v0 s) :
    s.betas 0 = 0 ∧ (s.i = 0 → s.beta = 0) := by
  induction h with
  | init =>
    refine ⟨?_, fun _ => rfl⟩
    simp [gkl_full_reortho_init]
  | step s Av vA hs ih =>
    refine ⟨?_, fun hc => absurd (show s.i + 1 = 0 from hc) (Nat.succ_ne_zero _)⟩
    show aset s.betas (s.i : ℤ) s.beta 0 = 0
    rcases Nat.eq_zero_or_pos s.i with h0 | hpos
    · rw [h0]
      rw [aset_coe_lt s.betas 0 (Nat.succ_pos depth)]
      simp [Function.update_apply, ih.2 h0]
    · by_cases hlt : s.i < depth + 1
      · rw [aset_coe_lt s.betas s.i hlt]
        rw [Function.update_noteq (Fin.ne_of_val_ne (by simpa using hpos.ne))]
        exact ih.1
      · rw [aset_oob s.betas s.i (by omega)]
        exact ih.1

/-- C6: the GKL extraction returns the four-tuple `(Us transposed to
columns, (alphas, betas with the first entry dropped), Vs, (beta, vk))`,
and in every state reachable from the GKL initializer by any number of
steps `betas[0] = 0`, so the dropped entry is always the initial zero. -/
theorem gkl_extract_and_betas_zero :
    (∀ (depth nrows ncols : ℕ) (s : GKLState depth nrows ncols),
        gkl_full_reortho_extract s =
          (fun j k => s.Us k j, (s.alphas, fun k => s.betas k.succ), s.Vs,
            (s.beta, s.vk))) ∧
      (∀ (depth nrows ncols : ℕ) (v0 : Vec ncols) (s : GKLState depth nrows ncols),
        GKLReachable v0 s → s.betas 0 = 0) :=
  ⟨fun _ _ _ _ => rfl, fun _ _ _ v0 s h => (gkl_reachable_inv v0 s h).1⟩

/-- Witness for C6 at the initial state of a concrete GKL run. -/
theorem gkl_extract_and_betas_zero_witness :
    GKLReachable (fun _ => 1 : Vec 2)
        (gkl_full_reortho_init 1 2 2 (fun _ => 1)) ∧
      (gkl_full_reortho_init 1 2 2 (fun _ => 1)).betas 0 = 0 :=
  ⟨GKLReachable.init, gkl_extract_and_betas_zero.2 1 2 2 _ _ GKLReachable.init⟩

theorem apply_i {depth n : ℕ} (s : LanczosState depth n) (Av : Vec n → Vec n) :
    (lanczos_full_reortho_apply s Av).i = s.i + 1 := rfl

theorem apply_basis {depth n : ℕ} (s : LanczosState depth n) (Av : Vec n → Vec n) :
    (lanczos_full_reortho_apply s Av).basis =
      aset s.basis (s.i : ℤ)
        (normalise (gram_schmidt_orthogonalise_set (normalise s.q).1
          (List.ofFn s.basis)).1).1 := rfl

theorem apply_diag {depth n : ℕ} (s : LanczosState depth n) (Av : Vec n → Vec n) :
    (lanczos_full_reortho_apply s Av).diag =
      aset s.diag (s.i : ℤ)
        (gram_schmidt_orthogonalise_set
          (Av (normalise (gram_schmidt_orthogonalise_set (normalise s.q).1
            (List.ofFn s.basis)).1).1)
          [aget ((lanczos_full_reortho_apply s Av).basis) (s.i : ℤ),
            aget ((lanczos_full_reortho_apply s Av).basis) ((s.i : ℤ) - 1)]).2.headI := rfl

theorem apply_offdiag {depth n : ℕ} (s : LanczosState depth n) (Av : Vec n → Vec n) :
    (lanczos_full_reortho_apply s Av).offdiag =
      aset s.offdiag ((s.i : ℤ) - 1) (vector_norm s.q) := rfl

theorem apply_q {depth n : ℕ} (s : LanczosState depth n) (Av : Vec n → Vec n) :
    (lanczos_full_reortho_apply s Av).q =
      (gram_schmidt_orthogonalise_set
        (Av (normalise (gram_schmidt_orthogonalise_set (normalise s.q).1
          (List.ofFn s.basis)).1).1)
        [aget ((lanczos_full_reortho_apply s Av).basis) (s.i : ℤ),
          aget ((lanczos_full_reortho_apply s Av).basis) ((s.i : ℤ) - 1)]).1 := rfl

theorem lanczosRun_i {depth n : ℕ} (Av : Vec n → Vec n) (v0 : Vec n) (k : ℕ) :
    (lanczosRun depth Av v0 k).i = k := by
  induction k with
  | zero => rfl
  | succ k ih =>
    rw [lanczosRun, Function.iterate_succ_apply']
    show (lanczos_full_reortho_apply (lanczosRun depth Av v0 k) Av).i = k + 1
    rw [apply_i, ih]

theorem lanczosRun_succ {depth n : ℕ} (Av : Vec n → Vec n) (v0 : Vec n) (k : ℕ) :
    lanczosRun depth Av v0 (k + 1) =
      lanczos_full_reortho_apply (lanczosRun depth Av v0 k) Av := by
  rw [lanczosRun, Function.iterate_succ_apply']
  rfl

/-- C9: a tridiagonal step on a state with in-range index `i` writes only
basis row `i`, diagonal entry `i` and the off-diagonal entry at position
`i-1` taken modulo the array length (which receives the pre-step length),
leaves every other entry unchanged, and increments the index by exactly
one; consequently at `i = 0` the write lands on `offdiag[depth-1]`, which
holds the initial vector's norm after every step count `k` with `1 <= k <=
depth`, i.e. until the final iteration `i = depth` overwrites it. -/
theorem lanczos_step_frame_and_transient (depth n : ℕ) (hd : 1 ≤ depth) :
    (∀ (s : LanczosState depth n) (Av : Vec n → Vec n), s.i ≤ depth →
      ((lanczos_full_reortho_apply s Av).i = s.i + 1 ∧
        (∀ j : Fin (depth + 1), j.1 ≠ s.i →
          (lanczos_full_reortho_apply s Av).basis j = s.basis j) ∧
        (∀ j : Fin (depth + 1), j.1 ≠ s.i →
          (lanczos_full_reortho_apply s Av).diag j = s.diag j) ∧
        (∀ j : Fin depth, j.1 ≠ (s.i + depth - 1) % depth →
          (lanczos_full_reortho_apply s Av).offdiag j = s.offdiag j) ∧
        (lanczos_full_reortho_apply s Av).offdiag
            ⟨(s.i + depth - 1) % depth, Nat.mod_lt _ hd⟩ =
          vector_norm s.q)) ∧
    (∀ (Av : Vec n → Vec n) (v0 : Vec n) (k : ℕ), 1 ≤ k → k ≤ depth →
      (lanczosRun depth Av v0 k).offdiag ⟨depth - 1, by omega⟩ =
        vector_norm v0) := by
  have hmod : ∀ i : ℕ, 1 ≤ i → i ≤ depth → (i + depth - 1) % depth = i - 1 := by
    intro i h1 h2
    rw [show i + depth - 1 = (i - 1) + 1 * depth by omega, Nat.add_mul_mod_self_right]
    exact Nat.mod_eq_of_lt (by omega)
  have hmod0 : (0 + depth - 1) % depth = depth - 1 := by
    rw [Nat.zero_add]
    exact Nat.mod_eq_of_lt (by omega)
  have hofd : ∀ (s : LanczosState depth n) (Av : Vec n → Vec n), s.i ≤ depth →
      ∀ t : Fin depth, (lanczos_full_reortho_apply s Av).offdiag t =
        if t.1 = (s.i + depth - 1) % depth then vector_norm s.q else s.offdiag t := by
    intro s Av hi t
    rw [apply_offdiag]
    rcases Nat.eq_zero_or_pos s.i with h0 | hpos
    · rw [h0]
      rw [show ((0 : ℕ) : ℤ) - 1 = -1 by norm_num]
      rw [aset_neg_one (by omega : 0 < depth)]
      simp only [Function.update_apply, Fin.ext_iff]
      simp [hmod0]
    · rw [show ((s.i : ℕ) : ℤ) - 1 = ((s.i - 1 : ℕ) : ℤ) by omega]
      rw [aset_coe_lt s.offdiag (s.i - 1) (by omega)]
      simp only [Function.update_apply, Fin.ext_iff]
      simp [hmod s.i hpos hi]
  have frame : ∀ (s : LanczosState depth n) (Av : Vec n → Vec n), s.i ≤ depth →
      ((lanczos_full_reortho_apply s Av).i = s.i + 1 ∧
        (∀ j : Fin (depth + 1), j.1 ≠ s.i →
          (lanczos_full_reortho_apply s Av).basis j = s.basis j) ∧
        (∀ j : Fin (depth + 1), j.1 ≠ s.i →
          (lanczos_full_reortho_apply s Av).diag j = s.diag j) ∧
        (∀ j : Fin depth, j.1 ≠ (s.i + depth - 1) % depth →
          (lanczos_full_reortho_apply s Av).offdiag j = s.offdiag j) ∧
        (lanczos_full_reortho_apply s Av).offdiag
            ⟨(s.i + depth - 1) % depth, Nat.mod_lt _ hd⟩ =
          vector_norm s.q) := by
    intro s Av hi
    refine ⟨rfl, ?_, ?_, ?_, ?_⟩
    · intro j hj
      rw [apply_basis, aset_coe_lt s.basis s.i (by omega)]
      exact Function.update_noteq (Fin.ne_of_val_ne hj) _ _
    · intro j hj
      rw [apply_diag, aset_coe_lt s.diag s.i (by omega)]
      exact Function.update_noteq (Fin.ne_of_val_ne hj) _ _
    · intro j hj
      rw [hofd s Av hi j, if_neg hj]
    · rw [hofd s Av hi _, if_pos rfl]
  refine ⟨frame, ?_⟩
  intro Av v0 k hk1 hk2
  induction k with
  | zero => omega
  | succ k ih =>
    rw [lanczosRun_succ]
    rcases Nat.eq_zero_or_pos k with h0 | hpos
    · subst h0
      have h := hofd (lanczosRun depth Av v0 0) Av (by rw [lanczosRun_i]; omega)
        ⟨depth - 1, by omega⟩
      rw [lanczosRun_i] at h
      simp only [hmod0, if_true] at h
      rw [show (lanczosRun depth Av v0 0).q = v0 from rfl] at h
      exact h
    · have h := hofd (lanczosRun depth Av v0 k) Av (by rw [lanczosRun_i]; omega)
        ⟨depth - 1, by omega⟩
      rw [lanczosRun_i] at h
      simp only [hmod k hpos (by omega)] at h
      rw [if_neg (by omega)] at h
      rw [h]
      exact ih hpos (by omega)

/-- Witness for C9: one concrete step from the initial state and the
transient value after one step, at depth 2. -/
theorem lanczos_step_frame_and_transient_witness :
    ((1 : ℕ) ≤ 2 ∧
      ({ i := 0, basis := 0, diag := 0, offdiag := 0, q := fun _ => 1 } :
        LanczosState 2 2).i ≤ 2 ∧ (1 : ℕ) ≤ 1 ∧ (1 : ℕ) ≤ 2) ∧
      (lanczos_full_reortho_apply
          ({ i := 0, basis := 0, diag := 0, offdiag := 0, q := fun _ => 1 } :
            LanczosState 2 2) (fun v => v)).i =
        ({ i := 0, basis := 0, diag := 0, offdiag := 0, q := fun _ => 1 } :
          LanczosState 2 2).i + 1 ∧
      (lanczosRun 2 (fun v : Vec 2 => v) (fun _ => 1) 1).offdiag
          ⟨1, by norm_num⟩ =
        vector_norm (fun _ => (1 : ℝ) : Vec 2) :=
  ⟨⟨by norm_num, by norm_num, by norm_num, by norm_num⟩,
    ((lanczos_step_frame_and_transient 2 2 (by norm_num)).1 _ (fun v => v)
      (by norm_num)).1,
    (lanczos_step_frame_and_transient 2 2 (by norm_num)).2 (fun v => v) (fun _ => 1) 1
      (by norm_num) (by norm_num)⟩

theorem vecdot_add_left {n : ℕ} (a b t : Vec n) :
    vecdot (a + b) t = vecdot a t + vecdot b t := by
  simp [vecdot, add_mul, Finset.sum_add_distrib]

theorem vecdot_smul_left {n : ℕ} (c : ℝ) (a t : Vec n) :
    vecdot (c • a) t = c * vecdot a t := by
  simp [vecdot, mul_assoc, Finset.mul_sum]

theorem vecdot_mulVec_symm {n : ℕ} (A : Matrix (Fin n) (Fin n) ℝ) (hA : Aᵀ = A)
    (u w : Vec n) : vecdot (A.mulVec u) w = vecdot u (A.mulVec w) := by
  have hsym : ∀ j l, A j l = A l j := fun j l =>
    show A j l = A l j from congrFun (congrFun hA l) j
  simp only [vecdot, Matrix.mulVec, Matrix.dotProduct]
  calc ∑ j, (∑ l, A j l * u l) * w j
      = ∑ j, ∑ l, A j l * u l * w j := by simp [Finset.sum_mul]
    _ = ∑ l, ∑ j, A j l * u l * w j := Finset.sum_comm
    _ = ∑ l, u l * ∑ j, A l j * w j := by
        refine Finset.sum_congr rfl fun l _ => ?_
        rw [Finset.mul_sum]
        refine Finset.sum_congr rfl fun j _ => ?_
        rw [hsym j l]
        ring

theorem normalise_dot_self_orig {n : ℕ} (v : Vec n) (hv : v ≠ 0) :
    vecdot (normalise v).1 v = vector_norm v := by
  have hL : vector_norm v ≠ 0 := fun h => hv ((vector_norm_eq_zero_iff v).1 h)
  show vecdot (fun j => v j / vector_norm v) v = vector_norm v
  rw [vecdot_div_left, ← vector_norm_mul_self v]
  field_simp

theorem smul_normalise_eq_self {n : ℕ} (v : Vec n) (hv : v ≠ 0) :
    (fun t => vector_norm v * (normalise v).1 t) = v := by
  have hL : vector_norm v ≠ 0 := fun h => hv ((vector_norm_eq_zero_iff v).1 h)
  funext t
  show vector_norm v * (v t / vector_norm v) = v t
  field_simp

theorem gs_set_pair {n : ℕ} (w a b : Vec n) :
    (gram_schmidt_orthogonalise_set w [a, b]).1 =
      fun t => (w t - vecdot w a * a t) -
        vecdot (fun r => w r - vecdot w a * a r) b * b t := rfl

theorem gs_set_pair_coeff {n : ℕ} (w a b : Vec n) :
    (gram_schmidt_orthogonalise_set w [a, b]).2.headI = vecdot w a := rfl

theorem linv_init {depth n : ℕ} (A : Matrix (Fin n) (Fin n) ℝ) (v0 : Vec n) :
    LInv A 0 (lanczosInitState depth n v0) where
  hk := by omega
  idx := rfl
  unit := fun j hj => absurd hj (Nat.not_lt_zero j)
  orth := fun j t hj _ _ => absurd hj (Nat.not_lt_zero j)
  zrow := fun j _ => rfl
  worth := fun j hj => absurd hj (Nat.not_lt_zero j)
  rec3 := fun j hj => absurd hj (Nat.not_lt_zero (j + 1))
  rlast := fun j hj => absurd hj (Nat.succ_ne_zero j)

theorem apply_offdiag_update {depth n : ℕ} (hd : 1 ≤ depth) (s : LanczosState depth n)
    (Av : Vec n → Vec n) (hk : s.i ≤ depth) :
    (lanczos_full_reortho_apply s Av).offdiag =
      Function.update s.offdiag ⟨(s.i + depth - 1) % depth, Nat.mod_lt _ hd⟩
        (vector_norm s.q) := by
  funext t
  rw [apply_offdiag]
  rcases Nat.eq_zero_or_pos s.i with h0 | hpos
  · rw [show ((s.i : ℕ) : ℤ) - 1 = -1 by omega, aset_neg_one (by omega)]
    rw [Function.update_apply, Function.update_apply]
    have hm : (s.i + depth - 1) % depth = depth - 1 := by
      rw [h0, Nat.zero_add]; exact Nat.mod_eq_of_lt (by omega)
    simp only [Fin.ext_iff, hm]
  · rw [show ((s.i : ℕ) : ℤ) - 1 = ((s.i - 1 : ℕ) : ℤ) by omega,
      aset_coe_lt s.offdiag (s.i - 1) (by omega)]
    rw [Function.update_apply, Function.update_apply]
    have hm : (s.i + depth - 1) % depth = s.i - 1 := by
      rw [show s.i + depth - 1 = (s.i - 1) + 1 * depth by omega, Nat.add_mul_mod_self_right]
      exact Nat.mod_eq_of_lt (by omega)
    simp only [Fin.ext_iff, hm]

theorem apply_fields {depth n : ℕ} (s : LanczosState depth n) (Av : Vec n → Vec n)
    (hk : s.i ≤ depth) (hq : s.q ≠ 0)
    (horthq : ∀ j : Fin (depth + 1), vecdot s.q (s.basis j) = 0)
    (P : Vec n)
    (hPget : aget (Function.update s.basis ⟨s.i, Nat.lt_succ_of_le hk⟩ (normalise s.q).1)
      ((s.i : ℤ) - 1) = P) :
    (lanczos_full_reortho_apply s Av).basis =
        Function.update s.basis ⟨s.i, Nat.lt_succ_of_le hk⟩ (normalise s.q).1 ∧
      (lanczos_full_reortho_apply s Av).q = (fun t =>
        (Av (normalise s.q).1 t - vecdot (Av (normalise s.q).1) (normalise s.q).1 *
            (normalise s.q).1 t) -
          vecdot (fun r => Av (normalise s.q).1 r -
            vecdot (Av (normalise s.q).1) (normalise s.q).1 * (normalise s.q).1 r) P *
            P t) ∧
      (lanczos_full_reortho_apply s Av).diag =
        Function.update s.diag ⟨s.i, Nat.lt_succ_of_le hk⟩
          (vecdot (Av (normalise s.q).1) (normalise s.q).1) ∧
      (lanczos_full_reortho_apply s Av).i = s.i + 1 := by
  have hu_orth : ∀ j : Fin (depth + 1), vecdot (normalise s.q).1 (s.basis j) = 0 := by
    intro j
    show vecdot (fun t => s.q t / vector_norm s.q) (s.basis j) = 0
    rw [vecdot_div_left, horthq j, zero_div]
  have hp3 : (normalise ((gram_schmidt_orthogonalise_set (normalise s.q).1
      (List.ofFn s.basis)).1)).1 = (normalise s.q).1 := by
    rw [gs_set_noop _ _ (fun r hr => by
      rcases (List.mem_ofFn _ _).1 hr with ⟨j, rfl⟩
      exact hu_orth j)]
    exact normalise_of_unit _ (vecdot_normalise_self s.q hq)
  have hB : (lanczos_full_reortho_apply s Av).basis =
      Function.update s.basis ⟨s.i, Nat.lt_succ_of_le hk⟩ (normalise s.q).1 := by
    rw [apply_basis, aset_coe_lt s.basis s.i (Nat.lt_succ_of_le hk), hp3]
  refine ⟨hB, ?_, ?_, apply_i s Av⟩
  · rw [apply_q, hp3, hB, aget_coe_lt _ s.i (Nat.lt_succ_of_le hk), Function.update_same,
      hPget, gs_set_pair]
  · rw [apply_diag, hp3, hB, aget_coe_lt _ s.i (Nat.lt_succ_of_le hk), Function.update_same,
      hPget, gs_set_pair_coeff, aset_coe_lt s.diag s.i (Nat.lt_succ_of_le hk)]

theorem vecdot_add_right {n : ℕ} (t a b : Vec n) :
    vecdot t (a + b) = vecdot t a + vecdot t b := by
  rw [vecdot_comm, vecdot_add_left, vecdot_comm a t, vecdot_comm b t]

theorem vecdot_smul_right {n : ℕ} (t : Vec n) (c : ℝ) (a : Vec n) :
    vecdot t (c • a) = c * vecdot t a := by
  rw [vecdot_comm, vecdot_smul_left, vecdot_comm a t]

theorem update_mk_apply {m : ℕ} {α : Type} (f : Fin m → α) (a : ℕ) (ha : a < m) (x : α)
    (b : ℕ) (hb : b < m) :
    Function.update f ⟨a, ha⟩ x ⟨b, hb⟩ = if b = a then x else f ⟨b, hb⟩ := by
  rw [Function.update_apply]
  simp only [Fin.mk.injEq]

theorem mk_ne_mk {m a b : ℕ} {ha : a < m} {hb : b < m} (h : a ≠ b) :
    (⟨a, ha⟩ : Fin m) ≠ ⟨b, hb⟩ :=
  fun hc => h (congrArg Fin.val hc)

theorem ne_mk {m : ℕ} {a : Fin m} {b : ℕ} {hb : b < m} (h : a.val ≠ b) :
    a ≠ ⟨b, hb⟩ :=
  fun hc => h (congrArg Fin.val hc)

theorem linv_step {depth n : ℕ} (hd : 1 ≤ depth) (A : Matrix (Fin n) (Fin n) ℝ)
    (hA : Aᵀ = A) (k : ℕ) (hk : k ≤ depth) (s : LanczosState depth n)
    (inv : LInv A k s) (hq : s.q ≠ 0) :
    LInv A (k + 1) (lanczos_full_reortho_apply s A.mulVec) := by
  obtain ⟨i0, B0, D0, E0, q0⟩ := s
  have hik : i0 = k := inv.idx
  subst hik
  have hq0 : q0 ≠ 0 := hq
  have horthq : ∀ j : Fin (depth + 1), vecdot q0 (B0 j) = 0 := by
    intro j
    by_cases hj : j.1 < i0
    · exact inv.worth j.1 hj
    · have hz : B0 j = 0 := inv.zrow j (by omega)
      rw [hz]
      exact vecdot_zero_right _
  have hu_orth : ∀ j : Fin (depth + 1), vecdot (normalise q0).1 (B0 j) = 0 := by
    intro j
    show vecdot (fun t => q0 t / vector_norm q0) (B0 j) = 0
    rw [vecdot_div_left, horthq j, zero_div]
  have hu_unit : vecdot (normalise q0).1 (normalise q0).1 = 1 :=
    vecdot_normalise_self q0 hq0
  rcases Nat.eq_zero_or_pos i0 with hz0 | hpos
  · -- first step: every row is still zero
    subst hz0
    have hPget : aget (Function.update B0 ⟨0, Nat.lt_succ_of_le hk⟩ (normalise q0).1)
        (((0 : ℕ) : ℤ) - 1) = B0 ⟨depth, by omega⟩ := by
      rw [show (((0 : ℕ) : ℤ)) - 1 = -1 by norm_num, aget_neg_one]
      exact Function.update_noteq (mk_ne_mk (by omega)) _ _
    obtain ⟨hB, hQ, hD, hI⟩ :=
      apply_fields ⟨0, B0, D0, E0, q0⟩ A.mulVec hk hq0 horthq (B0 ⟨depth, by omega⟩) hPget
    replace hB : (lanczos_full_reortho_apply ⟨0, B0, D0, E0, q0⟩ A.mulVec).basis =
      Function.update B0 ⟨0, Nat.lt_succ_of_le hk⟩ (normalise q0).1 := hB
    replace hD : (lanczos_full_reortho_apply ⟨0, B0, D0, E0, q0⟩ A.mulVec).diag =
      Function.update D0 ⟨0, Nat.lt_succ_of_le hk⟩
        (vecdot (A.mulVec (normalise q0).1) (normalise q0).1) := hD
    replace hI : (lanczos_full_reortho_apply ⟨0, B0, D0, E0, q0⟩ A.mulVec).i = 0 + 1 := hI
    have hProw : B0 ⟨depth, by omega⟩ = 0 := inv.zrow _ (by omega)
    have hQ2 : (lanczos_full_reortho_apply ⟨0, B0, D0, E0, q0⟩ A.mulVec).q = fun t =>
        A.mulVec (normalise q0).1 t -
          vecdot (A.mulVec (normalise q0).1) (normalise q0).1 * (normalise q0).1 t := by
      rw [hQ, hProw]
      funext t
      simp [vecdot_zero_right]
    refine ⟨by omega, hI, ?_, ?_, ?_, ?_, ?_, ?_⟩
    · intro j hj
      have hj0 : j = 0 := by omega
      rw [hB, update_mk_apply, if_pos hj0]
      exact hu_unit
    · intro j t hj ht hjt
      omega
    · intro j hj
      rw [hB, Function.update_noteq (ne_mk (by omega))]
      exact inv.zrow j (by omega)
    · intro j hj
      have hj0 : j = 0 := by omega
      rw [hB, update_mk_apply, if_pos hj0, hQ2, vecdot_sub_mul_left, hu_unit]
      ring
    · intro j hj
      exact absurd hj (by omega)
    · intro j hj
      have hj0 : j = 0 := by omega
      subst hj0
      rw [hB, update_mk_apply, if_pos rfl, hD, update_mk_apply, if_pos rfl, hQ2,
        dif_neg (by omega)]
      funext t
      simp only [Pi.add_apply, Pi.smul_apply, smul_eq_mul, Pi.zero_apply]
      ring
  · -- later steps: the previous row is basis row `i0 - 1`
    have hPget : aget (Function.update B0 ⟨i0, Nat.lt_succ_of_le hk⟩ (normalise q0).1)
        ((i0 : ℤ) - 1) = B0 ⟨i0 - 1, by omega⟩ := by
      rw [show ((i0 : ℕ) : ℤ) - 1 = ((i0 - 1 : ℕ) : ℤ) by omega,
        aget_coe_lt _ (i0 - 1) (by omega)]
      exact Function.update_noteq (mk_ne_mk (by omega)) _ _
    obtain ⟨hB, hQ, hD, hI⟩ :=
      apply_fields ⟨i0, B0, D0, E0, q0⟩ A.mulVec hk hq0 horthq
        (B0 ⟨i0 - 1, by omega⟩) hPget
    replace hB : (lanczos_full_reortho_apply ⟨i0, B0, D0, E0, q0⟩ A.mulVec).basis =
      Function.update B0 ⟨i0, Nat.lt_succ_of_le hk⟩ (normalise q0).1 := hB
    replace hQ : (lanczos_full_reortho_apply ⟨i0, B0, D0, E0, q0⟩ A.mulVec).q = (fun t =>
      (A.mulVec (normalise q0).1 t -
          vecdot (A.mulVec (normalise q0).1) (normalise q0).1 * (normalise q0).1 t) -
        vecdot (fun r => A.mulVec (normalise q0).1 r -
            vecdot (A.mulVec (normalise q0).1) (normalise q0).1 * (normalise q0).1 r)
          (B0 ⟨i0 - 1, by omega⟩) * B0 ⟨i0 - 1, by omega⟩ t) := hQ
    replace hD : (lanczos_full_reortho_apply ⟨i0, B0, D0, E0, q0⟩ A.mulVec).diag =
      Function.update D0 ⟨i0, Nat.lt_succ_of_le hk⟩
        (vecdot (A.mulVec (normalise q0).1) (normalise q0).1) := hD
    replace hI : (lanczos_full_reortho_apply ⟨i0, B0, D0, E0, q0⟩ A.mulVec).i = i0 + 1 := hI
    have hofd : (lanczos_full_reortho_apply ⟨i0, B0, D0, E0, q0⟩ A.mulVec).offdiag =
        Function.update E0 ⟨(i0 + depth - 1) % depth, Nat.mod_lt _ hd⟩ (vector_norm q0) :=
      apply_offdiag_update hd ⟨i0, B0, D0, E0, q0⟩ A.mulVec hk
    have hmidx : (i0 + depth - 1) % depth = i0 - 1 := by
      rw [show i0 + depth - 1 = (i0 - 1) + 1 * depth by omega, Nat.add_mul_mod_self_right]
      exact Nat.mod_eq_of_lt (by omega)
    have hofd_at : ∀ (j : ℕ) (hjd : j < depth),
        (lanczos_full_reortho_apply ⟨i0, B0, D0, E0, q0⟩ A.mulVec).offdiag ⟨j, hjd⟩ =
          if j = i0 - 1 then vector_norm q0 else E0 ⟨j, hjd⟩ := by
      intro j hjd
      rw [hofd, update_mk_apply]
      simp only [hmidx]
    have hUq : vecdot (normalise q0).1 q0 = vector_norm q0 := normalise_dot_self_orig q0 hq0
    have hWrow : ∀ j : ℕ, (hj : j + 1 < i0) →
        vecdot (A.mulVec (normalise q0).1) (B0 ⟨j, by omega⟩) = 0 := by
      intro j hj
      rw [vecdot_mulVec_symm A hA, inv.rec3 j hj]
      rcases Nat.eq_zero_or_pos j with hj0 | hjpos
      · rw [dif_neg (by omega)]
        simp only [vecdot_add_right, vecdot_smul_right, vecdot_zero_right, hu_orth,
          mul_zero, add_zero]
      · rw [dif_pos hjpos]
        simp only [vecdot_add_right, vecdot_smul_right, hu_orth, mul_zero, add_zero]
    have hWlast : vecdot (A.mulVec (normalise q0).1) (B0 ⟨i0 - 1, by omega⟩) =
        vector_norm q0 := by
      rw [vecdot_mulVec_symm A hA, inv.rlast (i0 - 1) (by omega)]
      rcases Nat.eq_zero_or_pos (i0 - 1) with hj0 | hjpos
      · rw [dif_neg (by omega)]
        simp only [vecdot_add_right, vecdot_smul_right, vecdot_zero_right, hu_orth, hUq,
          mul_zero, add_zero]
      · rw [dif_pos hjpos]
        simp only [vecdot_add_right, vecdot_smul_right, hu_orth, hUq, mul_zero, add_zero]
    have hWrow2 : ∀ (j : ℕ) (hjd : j < depth + 1), j < i0 →
        vecdot (A.mulVec (normalise q0).1) (B0 ⟨j, hjd⟩) =
          if j = i0 - 1 then vector_norm q0 else 0 := by
      intro j hjd hjlt
      by_cases hj1 : j = i0 - 1
      · rw [if_pos hj1, show (⟨j, hjd⟩ : Fin (depth + 1)) = ⟨i0 - 1, by omega⟩ from
          Fin.ext hj1]
        exact hWlast
      · rw [if_neg hj1]
        exact hWrow j (by omega)
    have hProw2 : ∀ (j : ℕ) (hjd : j < depth + 1), j < i0 →
        vecdot (B0 ⟨i0 - 1, by omega⟩) (B0 ⟨j, hjd⟩) =
          if j = i0 - 1 then 1 else 0 := by
      intro j hjd hjlt
      by_cases hj1 : j = i0 - 1
      · rw [if_pos hj1, show (⟨j, hjd⟩ : Fin (depth + 1)) = ⟨i0 - 1, by omega⟩ from
          Fin.ext hj1]
        exact inv.unit (i0 - 1) (by omega)
      · rw [if_neg hj1]
        exact inv.orth (i0 - 1) j (by omega) (by omega) (by omega)
    have hPU : vecdot (B0 ⟨i0 - 1, by omega⟩) (normalise q0).1 = 0 := by
      rw [vecdot_comm]
      exact hu_orth _
    have hC2 : vecdot (fun r => A.mulVec (normalise q0).1 r -
        vecdot (A.mulVec (normalise q0).1) (normalise q0).1 * (normalise q0).1 r)
        (B0 ⟨i0 - 1, by omega⟩) = vector_norm q0 := by
      rw [vecdot_sub_mul_left, hWlast, vecdot_comm (normalise q0).1 _, hPU]
      ring
    have hdotQ : ∀ r : Vec n,
        vecdot ((lanczos_full_reortho_apply ⟨i0, B0, D0, E0, q0⟩ A.mulVec).q) r =
          vecdot (A.mulVec (normalise q0).1) r -
            vecdot (A.mulVec (normalise q0).1) (normalise q0).1 * vecdot (normalise q0).1 r -
            vector_norm q0 * vecdot (B0 ⟨i0 - 1, by omega⟩) r := by
      intro r
      rw [hQ, vecdot_sub_mul_left, vecdot_sub_mul_left, hC2]
    have hq0smul : vector_norm q0 • (normalise q0).1 = q0 := by
      funext t
      rw [Pi.smul_apply, smul_eq_mul]
      exact congrFun (smul_normalise_eq_self q0 hq0) t
    refine ⟨by omega, hI, ?_, ?_, ?_, ?_, ?_, ?_⟩
    · intro j hj
      rw [hB, update_mk_apply]
      by_cases hji : j = i0
      · rw [if_pos hji]
        exact hu_unit
      · rw [if_neg hji]
        exact inv.unit j (by omega)
    · intro j t hj ht hjt
      rw [hB, update_mk_apply, update_mk_apply]
      by_cases hji : j = i0 <;> by_cases hti : t = i0
      · omega
      · rw [if_pos hji, if_neg hti]
        exact hu_orth _
      · rw [if_neg hji, if_pos hti]
        rw [vecdot_comm]
        exact hu_orth _
      · rw [if_neg hji, if_neg hti]
        exact inv.orth j t (by omega) (by omega) hjt
    · intro j hj
      rw [hB, Function.update_noteq (ne_mk (by omega))]
      exact inv.zrow j (by omega)
    · intro j hj
      rw [hB, update_mk_apply]
      by_cases hji : j = i0
      · rw [if_pos hji, hdotQ, hu_unit, hPU]
        ring
      · rw [if_neg hji, hdotQ, hu_orth, hWrow2 j (by omega) (by omega),
          hProw2 j (by omega) (by omega)]
        by_cases hj1 : j = i0 - 1
        · rw [if_pos hj1, if_pos hj1]
          ring
        · rw [if_neg hj1, if_neg hj1]
          ring
    · intro j hj
      have hjlt : j < i0 := by omega
      rw [hB]
      rcases Nat.eq_zero_or_pos j with hj0 | hjpos
      · -- row 0: no subdiagonal term
        rw [dif_neg (by omega)]
        rw [update_mk_apply, update_mk_apply, hD, update_mk_apply, hofd_at j (by omega)]
        simp only [if_neg (show ¬ j = i0 by omega)]
        rcases Nat.lt_or_ge (j + 1) i0 with hcase | hcase
        · simp only [if_neg (show ¬ j + 1 = i0 by omega),
            if_neg (show ¬ j = i0 - 1 by omega)]
          have hrec := inv.rec3 j hcase
          rw [dif_neg (by omega)] at hrec
          exact hrec
        · have hji0 : j + 1 = i0 := by omega
          simp only [if_pos hji0, if_pos (show j = i0 - 1 by omega)]
          have hrec := inv.rlast j hji0
          rw [dif_neg (by omega)] at hrec
          rw [hrec, hq0smul]
      · -- an interior row with a subdiagonal term
        rw [dif_pos hjpos]
        rw [update_mk_apply, update_mk_apply, update_mk_apply, hD, update_mk_apply,
          hofd_at j (by omega), hofd_at (j - 1) (by omega)]
        simp only [if_neg (show ¬ j = i0 by omega),
          if_neg (show ¬ j - 1 = i0 by omega)]
        rcases Nat.lt_or_ge (j + 1) i0 with hcase | hcase
        · simp only [if_neg (show ¬ j + 1 = i0 by omega),
            if_neg (show ¬ j = i0 - 1 by omega),
            if_neg (show ¬ j - 1 = i0 - 1 by omega)]
          have hrec := inv.rec3 j hcase
          rw [dif_pos hjpos] at hrec
          exact hrec
        · have hji0 : j + 1 = i0 := by omega
          simp only [if_pos hji0, if_pos (show j = i0 - 1 by omega),
            if_neg (show ¬ j - 1 = i0 - 1 by omega)]
          have hrec := inv.rlast j hji0
          rw [dif_pos hjpos] at hrec
          rw [hrec, hq0smul]
    · intro j hj
      have hji : j = i0 := by omega
      subst hji
      rw [hB, dif_pos hpos]
      rw [update_mk_apply, update_mk_apply, hD, update_mk_apply,
        hofd_at (j - 1) (by omega)]
      simp only [eq_self_iff_true, if_true, if_neg (show ¬ j - 1 = j by omega)]
      rw [hQ, hC2]
      funext t
      simp only [Pi.add_apply, Pi.smul_apply, smul_eq_mul]
      ring

theorem linv_init_run {depth n : ℕ} (hd : 1 ≤ depth) (A : Matrix (Fin n) (Fin n) ℝ)
    (hA : Aᵀ = A) (v0 : Vec n) (K : ℕ) (hK : K ≤ depth + 1)
    (hnb : ∀ k < K, (lanczosRun depth A.mulVec v0 k).q ≠ 0) :
    LInv A K (lanczosRun depth A.mulVec v0 K) := by
  induction K with
  | zero => exact linv_init A v0
  | succ K ih =>
    rw [lanczosRun_succ]
    exact linv_step hd A hA K (by omega) _
      (ih (by omega) (fun k hk => hnb k (by omega))) (hnb K (by omega))

theorem band_sum_diag {m : ℕ} (B D : Fin m → ℝ) (j : Fin m) :
    ∑ l, B l * (if l = j then D l else 0) = B j * D j := by
  rw [Finset.sum_eq_single j]
  · rw [if_pos rfl]
  · intro l _ hl
    rw [if_neg hl, mul_zero]
  · intro hmem
    exact absurd (Finset.mem_univ _) hmem

theorem band_sum_sub {depth : ℕ} (B : Fin (depth + 1) → ℝ) (E : Fin depth → ℝ)
    (jv : ℕ) (hjv : jv < depth + 1) :
    ∑ l : Fin (depth + 1), B l * (if h : l.1 + 1 = jv then E ⟨l.1, by omega⟩ else 0) =
      if h : 0 < jv then B ⟨jv - 1, by omega⟩ * E ⟨jv - 1, by omega⟩ else 0 := by
  rcases Nat.eq_zero_or_pos jv with h0 | hpos
  · rw [dif_neg (by omega)]
    apply Finset.sum_eq_zero
    intro l _
    rw [dif_neg (by omega), mul_zero]
  · rw [dif_pos hpos, Finset.sum_eq_single ⟨jv - 1, by omega⟩]
    · rw [dif_pos (show (jv - 1) + 1 = jv by omega)]
    · intro l _ hl
      by_cases hc : l.1 + 1 = jv
      · exact absurd (Fin.ext (show l.1 = jv - 1 by omega)) hl
      · rw [dif_neg hc, mul_zero]
    · intro hmem
      exact absurd (Finset.mem_univ _) hmem

theorem band_sum_super {depth : ℕ} (B : Fin (depth + 1) → ℝ) (E : Fin depth → ℝ)
    (jv : ℕ) (hjv : jv < depth + 1) :
    ∑ l : Fin (depth + 1), B l * (if h : jv + 1 = l.1 then E ⟨jv, by omega⟩ else 0) =
      if h : jv < depth then B ⟨jv + 1, by omega⟩ * E ⟨jv, h⟩ else 0 := by
  rcases Nat.lt_or_ge jv depth with hlt | hge
  · rw [dif_pos hlt, Finset.sum_eq_single ⟨jv + 1, by omega⟩]
    · rw [dif_pos rfl]
    · intro l _ hl
      by_cases hc : jv + 1 = l.1
      · exact absurd (Fin.ext (show l.1 = jv + 1 by omega)) hl
      · rw [dif_neg hc, mul_zero]
    · intro hmem
      exact absurd (Finset.mem_univ _) hmem
  · rw [dif_neg (by omega)]
    apply Finset.sum_eq_zero
    intro l _
    rw [dif_neg (by have := l.isLt; omega), mul_zero]

/-- C2: at maximal depth (an `n = depth + 1` dimensional symmetric
operator decomposed with `depth = n - 1`), in exact arithmetic and with
no normalisation meeting a zero vector, the produced basis `Q` is a
square orthogonal matrix (`Q * Qᵀ = Qᵀ * Q = 1`) and reconstruction
through the symmetric tridiagonal matrix built from `(diag, offdiag)`
satisfies the round-trip law `Qᵀ * T * Q = A`. -/
theorem lanczos_full_depth_roundtrip (depth : ℕ) (hd : 1 ≤ depth)
    (A : Matrix (Fin (depth + 1)) (Fin (depth + 1)) ℝ) (hA : Aᵀ = A)
    (v0 : Vec (depth + 1))
    (hnb : LanczosNoBreakdown depth A.mulVec v0 (depth + 1)) :
    Matrix.of (lanczosRun depth A.mulVec v0 (depth + 1)).basis *
        (Matrix.of (lanczosRun depth A.mulVec v0 (depth + 1)).basis)ᵀ = 1 ∧
      (Matrix.of (lanczosRun depth A.mulVec v0 (depth + 1)).basis)ᵀ *
        Matrix.of (lanczosRun depth A.mulVec v0 (depth + 1)).basis = 1 ∧
      (Matrix.of (lanczosRun depth A.mulVec v0 (depth + 1)).basis)ᵀ *
          symTridiag (lanczosRun depth A.mulVec v0 (depth + 1)).diag
            (lanczosRun depth A.mulVec v0 (depth + 1)).offdiag *
        Matrix.of (lanczosRun depth A.mulVec v0 (depth + 1)).basis = A := by
  have inv := linv_init_run hd A hA v0 (depth + 1) (le_refl _)
    (fun k hk => (hnb k hk).1)
  set S := lanczosRun depth A.mulVec v0 (depth + 1) with hSdef
  have hQQt : Matrix.of S.basis * (Matrix.of S.basis)ᵀ = 1 := by
    ext j t
    rw [Matrix.mul_apply, Matrix.one_apply]
    simp only [Matrix.transpose_apply, Matrix.of_apply]
    by_cases hjt : j = t
    · subst hjt
      rw [if_pos rfl]
      exact inv.unit j.1 j.isLt
    · rw [if_neg hjt]
      exact inv.orth j.1 t.1 j.isLt t.isLt (fun hc => hjt (Fin.ext hc))
  have hQtQ : (Matrix.of S.basis)ᵀ * Matrix.of S.basis = 1 :=
    Matrix.mul_eq_one_comm.mp hQQt
  have hSq : S.q = 0 := by
    have h1 : Matrix.of S.basis *ᵥ S.q = 0 := by
      funext j
      show vecdot (S.basis j) S.q = 0
      rw [vecdot_comm]
      exact inv.worth j.1 j.isLt
    calc S.q = (1 : Matrix (Fin (depth + 1)) (Fin (depth + 1)) ℝ) *ᵥ S.q := by
          rw [Matrix.one_mulVec]
      _ = ((Matrix.of S.basis)ᵀ * Matrix.of S.basis) *ᵥ S.q := by rw [hQtQ]
      _ = (Matrix.of S.basis)ᵀ *ᵥ (Matrix.of S.basis *ᵥ S.q) := by
          rw [← Matrix.mulVec_mulVec]
      _ = (Matrix.of S.basis)ᵀ *ᵥ (0 : Vec (depth + 1)) := by rw [h1]
      _ = 0 := Matrix.mulVec_zero _
  have hrecfull : ∀ (j : ℕ) (hj : j < depth + 1),
      A.mulVec (S.basis ⟨j, hj⟩) =
        (if hjd : j < depth then S.offdiag ⟨j, hjd⟩ • S.basis ⟨j + 1, by omega⟩ else 0) +
          S.diag ⟨j, hj⟩ • S.basis ⟨j, hj⟩ +
          (if hj0 : 0 < j then S.offdiag ⟨j - 1, by omega⟩ • S.basis ⟨j - 1, by omega⟩
            else 0) := by
    intro j hj
    rcases Nat.lt_or_ge j depth with hjd | hjd
    · rw [dif_pos hjd]
      exact inv.rec3 j (by omega)
    · rw [dif_neg (by omega)]
      have hlast := inv.rlast j (by omega)
      rw [hSq] at hlast
      rw [hlast, zero_add]
  have hAQt : A * (Matrix.of S.basis)ᵀ =
      (Matrix.of S.basis)ᵀ * symTridiag S.diag S.offdiag := by
    ext x j
    rw [Matrix.mul_apply, Matrix.mul_apply]
    have hL : ∑ l, A x l * (Matrix.of S.basis)ᵀ l j = A.mulVec (S.basis j) x := by
      simp only [Matrix.transpose_apply, Matrix.of_apply]
      rfl
    rw [hL, hrecfull j.1 j.isLt]
    have hsplit : ∀ l : Fin (depth + 1),
        (Matrix.of S.basis)ᵀ x l * symTridiag S.diag S.offdiag l j =
          S.basis l x * (if l = j then S.diag l else 0) +
            S.basis l x * (if h : l.1 + 1 = j.1 then S.offdiag ⟨l.1, by omega⟩ else 0) +
            S.basis l x * (if h : j.1 + 1 = l.1 then S.offdiag ⟨j.1, by omega⟩ else 0) := by
      intro l
      simp only [Matrix.transpose_apply, Matrix.of_apply, symTridiag]
      ring
    rw [Finset.sum_congr rfl (fun l _ => hsplit l)]
    rw [Finset.sum_add_distrib, Finset.sum_add_distrib]
    rw [band_sum_diag (fun l => S.basis l x) S.diag j]
    rw [band_sum_sub (fun l => S.basis l x) S.offdiag j.1 j.isLt]
    rw [band_sum_super (fun l => S.basis l x) S.offdiag j.1 j.isLt]
    rcases Nat.lt_or_ge j.1 depth with h1 | h1 <;>
      rcases Nat.eq_zero_or_pos j.1 with h2 | h2
    · simp only [dif_pos h1, dif_neg (show ¬ 0 < j.1 by omega)]
      simp only [Pi.add_apply, Pi.smul_apply, Pi.zero_apply, smul_eq_mul]
      ring
    · simp only [dif_pos h1, dif_pos h2]
      simp only [Pi.add_apply, Pi.smul_apply, Pi.zero_apply, smul_eq_mul]
      ring
    · simp only [dif_neg (show ¬ j.1 < depth by omega),
        dif_neg (show ¬ 0 < j.1 by omega)]
      simp only [Pi.add_apply, Pi.smul_apply, Pi.zero_apply, smul_eq_mul]
      ring
    · simp only [dif_neg (show ¬ j.1 < depth by omega), dif_pos h2]
      simp only [Pi.add_apply, Pi.smul_apply, Pi.zero_apply, smul_eq_mul]
      ring
  refine ⟨hQQt, hQtQ, ?_⟩
  calc (Matrix.of S.basis)ᵀ * symTridiag S.diag S.offdiag * Matrix.of S.basis
      = (A * (Matrix.of S.basis)ᵀ) * Matrix.of S.basis := by rw [hAQt]
    _ = A * ((Matrix.of S.basis)ᵀ * Matrix.of S.basis) := by rw [Matrix.mul_assoc]
    _ = A * 1 := by rw [hQtQ]
    _ = A := Matrix.mul_one A

theorem wA_symm : wAᵀ = wA := by
  funext i j
  fin_cases i <;> fin_cases j <;> simp [wA, Matrix.transpose_apply]

theorem wv_dot : vecdot (![1, 0] : Vec 2) ![1, 0] = 1 := by
  simp [vecdot, Fin.sum_univ_two]

theorem wv2_dot : vecdot (![0, 1] : Vec 2) ![0, 1] = 1 := by
  simp [vecdot, Fin.sum_univ_two]

theorem wv_ne : (![1, 0] : Vec 2) ≠ 0 := by
  intro h
  have h0 := congrFun h 0
  simp at h0

theorem wv2_ne : (![0, 1] : Vec 2) ≠ 0 := by
  intro h
  have h0 := congrFun h 1
  simp at h0

theorem wA_mulVec : wA.mulVec (![1, 0] : Vec 2) = ![0, 1] := by
  funext j
  fin_cases j <;>
    simp [wA, Matrix.mulVec, Matrix.dotProduct, Fin.sum_univ_two]

theorem wv_cross_dot : vecdot (![0, 1] : Vec 2) ![1, 0] = 0 := by
  simp [vecdot, Fin.sum_univ_two]

theorem wv_nobreak : LanczosNoBreakdown 1 wA.mulVec wv 2 := by
  have hk01 : (0 : ℕ) ≤ 1 := by norm_num
  have hnuW : (normalise wv).1 = ![1, 0] := normalise_of_unit _ wv_dot
  have hnu2 : (normalise (![0, 1] : Vec 2)).1 = ![0, 1] := normalise_of_unit _ wv2_dot
  have hwvne : wv ≠ 0 := wv_ne
  have horthq0 : ∀ j : Fin 2, vecdot wv ((0 : Fin 2 → Vec 2) j) = 0 := fun j =>
    vecdot_zero_right _
  have hPget0 : aget (Function.update (0 : Fin 2 → Vec 2) ⟨0, Nat.lt_succ_of_le hk01⟩
      (normalise wv).1) (((0 : ℕ) : ℤ) - 1) = (0 : Vec 2) := by
    rw [show (((0 : ℕ) : ℤ)) - 1 = -1 by norm_num, aget_neg_one]
    rw [Function.update_noteq (mk_ne_mk (by omega))]
    rfl
  obtain ⟨hB1, hQ1, hD1, hI1⟩ :=
    apply_fields ⟨0, 0, 0, 0, wv⟩ wA.mulVec hk01 hwvne horthq0 (0 : Vec 2) hPget0
  have hq1 : (lanczosRun 1 wA.mulVec wv 1).q = ![0, 1] := by
    show (lanczos_full_reortho_apply ⟨0, 0, 0, 0, wv⟩ wA.mulVec).q = ![0, 1]
    rw [hQ1, hnuW, wA_mulVec, wv_cross_dot]
    funext t
    simp [vecdot_zero_right]
  have hb1 : (lanczosRun 1 wA.mulVec wv 1).basis =
      Function.update (0 : Fin 2 → Vec 2) ⟨0, Nat.lt_succ_of_le hk01⟩ ![1, 0] := by
    show (lanczos_full_reortho_apply ⟨0, 0, 0, 0, wv⟩ wA.mulVec).basis = _
    rw [hB1, hnuW]
  intro k hk
  interval_cases k
  · refine ⟨hwvne, ?_⟩
    show (gram_schmidt_orthogonalise_set (normalise wv).1
      (List.ofFn (0 : Fin 2 → Vec 2))).1 ≠ 0
    rw [gs_set_noop _ _ (fun r hr => by
      rcases (List.mem_ofFn _ _).1 hr with ⟨j, rfl⟩
      exact vecdot_zero_right _)]
    rw [hnuW]
    exact wv_ne
  · constructor
    · rw [hq1]
      exact wv2_ne
    · rw [hq1, hb1, hnu2]
      rw [gs_set_noop _ _ (fun r hr => by
        rcases (List.mem_ofFn _ _).1 hr with ⟨j, rfl⟩
        fin_cases j <;>
          simp [Function.update_apply, vecdot, Fin.sum_univ_two])]
      exact wv2_ne

/-- Witness for C2 at the concrete symmetric operator `wA` with initial
vector `wv` and maximal depth 1. -/
theorem lanczos_full_depth_roundtrip_witness :
    Matrix.of (lanczosRun 1 wA.mulVec wv 2).basis *
        (Matrix.of (lanczosRun 1 wA.mulVec wv 2).basis)ᵀ = 1 ∧
      (Matrix.of (lanczosRun 1 wA.mulVec wv 2).basis)ᵀ *
        Matrix.of (lanczosRun 1 wA.mulVec wv 2).basis = 1 ∧
      (Matrix.of (lanczosRun 1 wA.mulVec wv 2).basis)ᵀ *
          symTridiag (lanczosRun 1 wA.mulVec wv 2).diag
            (lanczosRun 1 wA.mulVec wv 2).offdiag *
        Matrix.of (lanczosRun 1 wA.mulVec wv 2).basis = wA :=
  lanczos_full_depth_roundtrip 1 (by norm_num) wA wA_symm wv wv_nobreak

end Matfree
